import Mathlib

/-!
# Verification of the Datanika orchestration core and example seed generators

This file embeds, in Lean 4, the parts of the `datanika-core` repository that
the verified properties speak about:

* the dependency-graph edge validation and topological ordering,
* the Run-ledger state machine,
* the task-queue concurrency discipline,
* the APScheduler-backed schedule registry (sync / cron validation /
  misfire coalescing),
* the orchestrator's DAG-group failure propagation,
* the Cython example-data generators (`examples/_seed_generators.pyx`).

The orchestration services themselves are described by the repository's design
documents (`DESIGN.md` §Scheduling, §Job Lifecycle) and the system
specification; the example generators are translated directly from
`_seed_generators.pyx`.  Randomness in the generators is modelled by explicit
entropy streams; wall-clock datetimes are modelled as rational numbers of
seconds.
-/

namespace Datanika

/-- Entity reference: a tagged pair `(kind, id)` — the polymorphic key used in
edges, schedules and runs.  `kind` is an abstract tag (e.g. upload /
transformation / pipeline). -/
structure EntityRef where
  kind : Nat
  id : Nat
deriving DecidableEq, Repr

/-- A dependency edge `(upstream → downstream)` between two entities. -/
structure Edge where
  upstream : EntityRef
  downstream : EntityRef
deriving DecidableEq, Repr

/-- Direct successor step: the graph has a live edge from `a` to `b`. -/
def HasEdge (edges : List Edge) (a b : EntityRef) : Prop :=
  Edge.mk a b ∈ edges

instance (edges : List Edge) (a b : EntityRef) : Decidable (HasEdge edges a b) := by
  unfold HasEdge; infer_instance

/-- Reflexive-transitive reachability along upstream→downstream edges. -/
inductive Reach (edges : List Edge) : EntityRef → EntityRef → Prop
  | refl (a : EntityRef) : Reach edges a a
  | step {a b c : EntityRef} : HasEdge edges a b → Reach edges b c → Reach edges a c

/-- Reachability along at least one edge (a non-empty path). -/
def ReachPlus (edges : List Edge) (a c : EntityRef) : Prop :=
  ∃ b, HasEdge edges a b ∧ Reach edges b c

/-- A graph is acyclic when no entity lies on a non-empty cycle. -/
def Acyclic (edges : List Edge) : Prop :=
  ∀ v, ¬ ReachPlus edges v v

/-- One breadth-first expansion: add to the visited set every downstream
endpoint of an edge whose upstream endpoint is already visited. -/
def expand (edges : List Edge) (s : List EntityRef) : List EntityRef :=
  s ++ edges.filterMap fun e =>
    if e.upstream ∈ s ∧ e.downstream ∉ s then some e.downstream else none

/-- Iterated expansion of a visited set (`fuel` rounds). -/
def reachSet (edges : List Edge) : Nat → List EntityRef → List EntityRef
  | 0, s => s
  | fuel + 1, s => reachSet edges fuel (expand edges s)

/-- The reachability search used by `validate_edge`: breadth-first search from
`src`, following existing upstream→downstream edges.  `edges.length` rounds of
expansion always reach a fixed point. -/
def reachableB (edges : List Edge) (src dst : EntityRef) : Bool :=
  dst ∈ reachSet edges edges.length [src]

/-- A visited set is closed when it already contains every downstream endpoint
of an edge leaving it. -/
def Closed (edges : List Edge) (s : List EntityRef) : Prop :=
  ∀ e ∈ edges, e.upstream ∈ s → e.downstream ∈ s

/-- Number of candidate downstream endpoints not yet visited: the termination
measure of the breadth-first search. -/
def reachMeasure (edges : List Edge) (s : List EntityRef) : Nat :=
  ((edges.map Edge.downstream).dedup).countP fun d => !(decide (d ∈ s))

/-- Errors of dependency-edge validation
(`validate_edge(upstream, downstream, existing_edges)`). -/
inductive EdgeError
  | SelfReference
  | Duplicate
  | WouldCreateCycle
deriving DecidableEq, Repr

/-- Modelled from the spec: `dependency_service.validate_edge` is not under
`src/` (the design documents only describe it).  Per §4.1: reject a self-edge,
then a duplicate edge, then perform a reachability search from `downstream`
following existing upstream→downstream edges; if `upstream` is reachable from
`downstream`, adding the edge would close a cycle. -/
def validate_edge (upstream downstream : EntityRef) (existing_edges : List Edge) :
    Except EdgeError Unit :=
  if upstream = downstream then .error .SelfReference
  else if Edge.mk upstream downstream ∈ existing_edges then .error .Duplicate
  else if reachableB existing_edges downstream upstream then .error .WouldCreateCycle
  else .ok ()

/-- The only edge-creation path: insert the edge exactly when `validate_edge`
accepts it, otherwise leave the edge set unchanged. -/
def insert_edge (edges : List Edge) (u d : EntityRef) : List Edge :=
  match validate_edge u d edges with
  | .ok _ => edges ++ [Edge.mk u d]
  | .error _ => edges

/-- Apply a whole sequence of edge-insertion requests, starting from the empty
graph, every insertion validated through `validate_edge`. -/
def insert_all (reqs : List (EntityRef × EntityRef)) : List Edge :=
  reqs.foldl (fun g r => insert_edge g r.1 r.2) []

lemma subset_expand (edges : List Edge) (s : List EntityRef) : s ⊆ expand edges s := by
  intro a ha
  exact List.mem_append_left _ ha

lemma expand_mono {edges : List Edge} {s t : List EntityRef} (hst : s ⊆ t) :
    expand edges s ⊆ expand edges t := by
  intro a ha
  rcases List.mem_append.mp ha with h | h
  · exact List.mem_append_left _ (hst h)
  · rcases List.mem_filterMap.mp h with ⟨e, he, hcond⟩
    by_cases hat : a ∈ t
    · exact List.mem_append_left _ hat
    · split at hcond
      · rename_i hc
        cases hcond
        refine List.mem_append_right _ (List.mem_filterMap.mpr ⟨e, he, ?_⟩)
        rw [if_pos ⟨hst hc.1, hat⟩]
      · cases hcond

lemma reachSet_mono {edges : List Edge} {s t : List EntityRef} (fuel : Nat) (hst : s ⊆ t) :
    reachSet edges fuel s ⊆ reachSet edges fuel t := by
  induction fuel generalizing s t with
  | zero => exact hst
  | succ n ih => exact ih (expand_mono hst)

lemma subset_reachSet (edges : List Edge) (fuel : Nat) (s : List EntityRef) :
    s ⊆ reachSet edges fuel s := by
  induction fuel generalizing s with
  | zero => exact fun a ha => ha
  | succ n ih => exact fun a ha => ih (expand edges s) (subset_expand edges s ha)

lemma expand_of_closed {edges : List Edge} {s : List EntityRef} (hc : Closed edges s) :
    expand edges s = s := by
  unfold expand
  have : (edges.filterMap fun e =>
      if e.upstream ∈ s ∧ e.downstream ∉ s then some e.downstream else none) = [] := by
    refine List.filterMap_eq_nil_iff.mpr fun e he => ?_
    rw [if_neg]
    rintro ⟨h1, h2⟩
    exact h2 (hc e he h1)
  rw [this, List.append_nil]

lemma reachSet_of_closed {edges : List Edge} {s : List EntityRef} (fuel : Nat)
    (hc : Closed edges s) : reachSet edges fuel s = s := by
  induction fuel with
  | zero => rfl
  | succ n ih => rw [reachSet, expand_of_closed hc, ih]

lemma countP_lt_countP {α : Type} {l : List α} {p q : α → Bool}
    (hpq : ∀ x ∈ l, p x = true → q x = true)
    (x : α) (hx : x ∈ l) (hqx : q x = true) (hpx : p x = false) :
    l.countP p < l.countP q := by
  induction l with
  | nil => cases hx
  | cons a t ih =>
    rcases List.mem_cons.mp hx with rfl | hxt
    · have hle : t.countP p ≤ t.countP q :=
        List.countP_mono_left fun y hy => hpq y (List.mem_cons_of_mem _ hy)
      rw [List.countP_cons, List.countP_cons, hpx, hqx]
      simp only [Bool.false_eq_true, if_false, if_true, Nat.add_zero]
      omega
    · have hlt : t.countP p < t.countP q :=
        ih (fun y hy => hpq y (List.mem_cons_of_mem _ hy)) hxt
      have hqa := hpq a (List.mem_cons_self _ _)
      rw [List.countP_cons, List.countP_cons]
      cases hp : p a <;> cases hq : q a <;> simp_all <;> omega

lemma reachMeasure_lt_of_not_closed {edges : List Edge} {s : List EntityRef}
    (h : ¬ Closed edges s) :
    reachMeasure edges (expand edges s) < reachMeasure edges s := by
  unfold Closed at h
  push_neg at h
  obtain ⟨e, he, hup, hdown⟩ := h
  have hmem : e.downstream ∈ (edges.map Edge.downstream).dedup :=
    List.mem_dedup.mpr (List.mem_map.mpr ⟨e, he, rfl⟩)
  have hin : e.downstream ∈ expand edges s := by
    refine List.mem_append_right _ (List.mem_filterMap.mpr ⟨e, he, ?_⟩)
    rw [if_pos ⟨hup, hdown⟩]
  refine countP_lt_countP ?_ e.downstream hmem ?_ ?_
  · intro y _ hy
    simp only [Bool.not_eq_true', decide_eq_false_iff_not] at hy ⊢
    exact fun hys => hy (subset_expand edges s hys)
  · simp [hdown]
  · simp [hin]

lemma closed_reachSet {edges : List Edge} (fuel : Nat) :
    ∀ s : List EntityRef, reachMeasure edges s ≤ fuel →
      Closed edges (reachSet edges fuel s) := by
  induction fuel with
  | zero =>
    intro s hs
    have h0 : reachMeasure edges s = 0 := Nat.le_zero.mp hs
    intro e he hup
    have := List.countP_eq_zero.mp h0 e.downstream
      (List.mem_dedup.mpr (List.mem_map.mpr ⟨e, he, rfl⟩))
    simp only [Bool.not_eq_true', decide_eq_false_iff_not, not_not] at this
    exact this
  | succ n ih =>
    intro s hs
    by_cases hc : Closed edges s
    · rw [reachSet_of_closed _ hc]
      exact hc
    · have hlt := reachMeasure_lt_of_not_closed hc
      exact ih (expand edges s) (by omega)

lemma reachMeasure_le (edges : List Edge) (s : List EntityRef) :
    reachMeasure edges s ≤ edges.length := by
  calc reachMeasure edges s ≤ ((edges.map Edge.downstream).dedup).length :=
        List.countP_le_length _
    _ ≤ (edges.map Edge.downstream).length := (List.dedup_sublist _).length_le
    _ = edges.length := List.length_map _ _

lemma mem_of_closed_of_reach {edges : List Edge} {t : List EntityRef} {x y : EntityRef}
    (hc : Closed edges t) (hx : x ∈ t) (hr : Reach edges x y) : y ∈ t := by
  induction hr with
  | refl => exact hx
  | step hab _ ih => exact ih (hc _ hab hx)

/-- Completeness of the breadth-first search: every reachable node is found. -/
lemma reach_complete {edges : List Edge} {x y : EntityRef} (hr : Reach edges x y) :
    reachableB edges x y = true := by
  have hclosed : Closed edges (reachSet edges edges.length [x]) :=
    closed_reachSet edges.length [x] (reachMeasure_le edges [x])
  have hx : x ∈ reachSet edges edges.length [x] :=
    subset_reachSet edges edges.length [x] (List.mem_singleton_self x)
  have := mem_of_closed_of_reach hclosed hx hr
  simpa [reachableB] using this

lemma not_reach_of_reachableB_false {edges : List Edge} {x y : EntityRef}
    (h : reachableB edges x y = false) : ¬ Reach edges x y := by
  intro hr
  rw [reach_complete hr] at h
  cases h

lemma reach_trans {edges : List Edge} {x y z : EntityRef}
    (hxy : Reach edges x y) (hyz : Reach edges y z) : Reach edges x z := by
  induction hxy with
  | refl => exact hyz
  | step hab _ ih => exact Reach.step hab (ih hyz)

/-- Decomposition of reachability in a graph extended by one edge `u → d`:
either the path avoids the new edge, or it passes through it. -/
lemma reach_append {edges : List Edge} {u d x y : EntityRef}
    (h : Reach (edges ++ [Edge.mk u d]) x y) :
    Reach edges x y ∨ (Reach edges x u ∧ Reach edges d y) := by
  induction h with
  | refl => exact Or.inl (Reach.refl _)
  | step hab _ ih =>
    rename_i a b c hbc
    rcases List.mem_append.mp hab with hG | hNew
    · rcases ih with h1 | ⟨h2, h3⟩
      · exact Or.inl (Reach.step hG h1)
      · exact Or.inr ⟨Reach.step hG h2, h3⟩
    · have heq : a = u ∧ b = d := by
        have := List.mem_singleton.mp hNew
        exact ⟨congrArg Edge.upstream this, congrArg Edge.downstream this⟩
      obtain ⟨rfl, rfl⟩ := heq
      rcases ih with h1 | ⟨_, h3⟩
      · exact Or.inr ⟨Reach.refl _, h1⟩
      · exact Or.inr ⟨Reach.refl _, h3⟩

/-- Adding an edge `u → d` such that `u` is not reachable from `d` preserves
acyclicity. -/
lemma acyclic_append {edges : List Edge} {u d : EntityRef} (hac : Acyclic edges)
    (hnr : ¬ Reach edges d u) : Acyclic (edges ++ [Edge.mk u d]) := by
  rintro v ⟨b, hvb, hbv⟩
  rcases List.mem_append.mp hvb with hG | hNew
  · rcases reach_append hbv with h1 | ⟨h2, h3⟩
    · exact hac v ⟨b, hG, h1⟩
    · exact hnr (reach_trans h3 (reach_trans (Reach.step hG (Reach.refl _)) h2))
  · have heq : v = u ∧ b = d := by
      have := List.mem_singleton.mp hNew
      exact ⟨congrArg Edge.upstream this, congrArg Edge.downstream this⟩
    obtain ⟨rfl, rfl⟩ := heq
    rcases reach_append hbv with h1 | ⟨h2, _⟩
    · exact hnr h1
    · exact hnr h2

lemma insert_edge_acyclic {edges : List Edge} (hac : Acyclic edges) (u d : EntityRef) :
    Acyclic (insert_edge edges u d) := by
  unfold insert_edge validate_edge
  by_cases h1 : u = d
  · simpa [h1] using hac
  · by_cases h2 : Edge.mk u d ∈ edges
    · simpa [h1, h2] using hac
    · by_cases h3 : reachableB edges d u = true
      · simpa [h1, h2, h3] using hac
      · have h3' : reachableB edges d u = false := by
          simpa using h3
        simp only [h1, h2, h3', if_false, if_neg, Bool.false_eq_true]
        simpa [h1, h2, h3'] using
          acyclic_append hac (not_reach_of_reachableB_false h3')

lemma insert_all_acyclic (reqs : List (EntityRef × EntityRef)) :
    Acyclic (insert_all reqs) := by
  have base : Acyclic ([] : List Edge) := by
    rintro v ⟨b, hvb, _⟩
    cases hvb
  have general : ∀ (l : List (EntityRef × EntityRef)) (g : List Edge), Acyclic g →
      Acyclic (l.foldl (fun g r => insert_edge g r.1 r.2) g) := by
    intro l
    induction l with
    | nil => exact fun g hg => hg
    | cons r t ih => exact fun g hg => ih _ (insert_edge_acyclic hg r.1 r.2)
  exact general reqs [] base

/-- In an acyclic graph, if `u` is reachable from `d` along at least one
existing edge, then validating the edge `u → d` reports `WouldCreateCycle`. -/
lemma validate_edge_cycle_of_reachPlus {edges : List Edge} {u d : EntityRef}
    (hac : Acyclic edges) (hr : ReachPlus edges d u) :
    validate_edge u d edges = .error .WouldCreateCycle := by
  obtain ⟨b, hdb, hbu⟩ := hr
  have hne : u ≠ d := by
    rintro rfl
    exact hac _ ⟨b, hdb, hbu⟩
  have hnd : Edge.mk u d ∉ edges := by
    intro hmem
    exact hac d ⟨b, hdb, reach_trans hbu (Reach.step hmem (Reach.refl _))⟩
  have hreach : reachableB edges d u = true :=
    reach_complete (Reach.step hdb hbu)
  unfold validate_edge
  rw [if_neg hne, if_neg hnd, if_pos hreach]

/-- **C1.** For every sequence of edge insertions validated through
`validate_edge`, the dependency graph never contains a cycle; an insertion
whose edge would close a cycle (`upstream` reachable from `downstream` along
existing upstream→downstream edges) returns `WouldCreateCycle` and leaves the
set of edges unchanged. -/
theorem validate_edge_never_cycles (reqs : List (EntityRef × EntityRef)) :
    Acyclic (insert_all reqs) ∧
      ∀ u d, ReachPlus (insert_all reqs) d u →
        validate_edge u d (insert_all reqs) = .error .WouldCreateCycle ∧
          insert_edge (insert_all reqs) u d = insert_all reqs := by
  refine ⟨insert_all_acyclic reqs, fun u d hr => ?_⟩
  have hval := validate_edge_cycle_of_reachPlus (insert_all_acyclic reqs) hr
  refine ⟨hval, ?_⟩
  unfold insert_edge
  rw [hval]

/-- Concrete instance of the cycle rejection: after inserting `1 → 2` and
`2 → 3`, the edge `3 → 1` would close a cycle and is rejected. -/
theorem validate_edge_never_cycles_witness :
    ReachPlus (insert_all [(⟨0, 1⟩, ⟨0, 2⟩), (⟨0, 2⟩, ⟨0, 3⟩)]) ⟨0, 1⟩ ⟨0, 3⟩ ∧
      validate_edge ⟨0, 3⟩ ⟨0, 1⟩ (insert_all [(⟨0, 1⟩, ⟨0, 2⟩), (⟨0, 2⟩, ⟨0, 3⟩)]) =
        .error .WouldCreateCycle := by
  have hr : ReachPlus (insert_all [(⟨0, 1⟩, ⟨0, 2⟩), (⟨0, 2⟩, ⟨0, 3⟩)]) ⟨0, 1⟩ ⟨0, 3⟩ :=
    ⟨⟨0, 2⟩, by decide, Reach.step (by decide) (Reach.refl _)⟩
  exact ⟨hr, ((validate_edge_never_cycles _).2 ⟨0, 3⟩ ⟨0, 1⟩ hr).1⟩

/-! ## Run Ledger — state machine (§4.2) -/

/-- Status of a Run.  `PENDING → RUNNING → {SUCCESS, FAILED}`, plus
`PENDING → CANCELLED` and `RUNNING → CANCELLED`. -/
inductive RunStatus
  | PENDING
  | RUNNING
  | SUCCESS
  | FAILED
  | CANCELLED
deriving DecidableEq, Repr

/-- Terminal states: SUCCESS, FAILED, CANCELLED. -/
def RunStatus.isTerminal : RunStatus → Bool
  | .SUCCESS => true
  | .FAILED => true
  | .CANCELLED => true
  | _ => false

/-- One execution attempt of one Entity.  Created PENDING; the mutable fields
(status, started_at, finished_at, metrics, error) are touched only by the
state-machine transition functions.  Timestamps and metrics are abstract
naturals. -/
structure Run where
  id : Nat
  target : EntityRef
  status : RunStatus
  started_at : Option Nat
  finished_at : Option Nat
  metrics : Option Nat
  error : Option String
  schedule_ref : Option Nat
deriving DecidableEq, Repr

/-- Error reported by a transition attempted from a state that does not
permit it. -/
inductive TransitionError
  | InvalidTransition
deriving DecidableEq, Repr

/-- Modelled from the spec: the Run Ledger's `start` transition
(`execution_service` is not under `src/`).  PENDING→RUNNING only; sets
`started_at`; fails with `InvalidTransition` if the run is not PENDING. -/
def Run.start (r : Run) (t : Nat) : Except TransitionError Run :=
  if r.status = .PENDING then
    .ok { r with status := .RUNNING, started_at := some t }
  else .error .InvalidTransition

/-- Modelled from the spec: `complete(run, metrics)`: RUNNING→SUCCESS; sets
`finished_at` and metrics. -/
def Run.complete (r : Run) (t : Nat) (m : Nat) : Except TransitionError Run :=
  if r.status = .RUNNING then
    .ok { r with status := .SUCCESS, finished_at := some t, metrics := some m }
  else .error .InvalidTransition

/-- Modelled from the spec: `fail(run, error)`: RUNNING→FAILED (or
PENDING→FAILED if the dispatch itself could not be attempted); sets
`finished_at` and the error detail. -/
def Run.fail (r : Run) (t : Nat) (e : String) : Except TransitionError Run :=
  if r.status = .RUNNING ∨ r.status = .PENDING then
    .ok { r with status := .FAILED, finished_at := some t, error := some e }
  else .error .InvalidTransition

/-- Modelled from the spec: `cancel(run)`: PENDING→CANCELLED or
RUNNING→CANCELLED. -/
def Run.cancel (r : Run) : Except TransitionError Run :=
  if r.status = .PENDING ∨ r.status = .RUNNING then
    .ok { r with status := .CANCELLED }
  else .error .InvalidTransition

/-- The four transition functions of the Run Ledger, as one request type. -/
inductive TransitionKind
  | start (t : Nat)
  | complete (t : Nat) (m : Nat)
  | fail (t : Nat) (e : String)
  | cancel
deriving DecidableEq, Repr

/-- Apply a transition to a Run: on success the updated Run, on failure the
Run unchanged together with the reported error. -/
def applyTransition (k : TransitionKind) (r : Run) : Run × Option TransitionError :=
  let out :=
    match k with
    | .start t => r.start t
    | .complete t m => r.complete t m
    | .fail t e => r.fail t e
    | .cancel => r.cancel
  match out with
  | .ok r2 => (r2, none)
  | .error e => (r, some e)

/-- **C2.** For every Run in a terminal state (SUCCESS, FAILED or CANCELLED),
no transition function changes its status: every attempted transition out of a
terminal state fails with `InvalidTransition` and leaves the Run unchanged,
never succeeding silently. -/
theorem terminal_runs_never_transition (r : Run) (h : r.status.isTerminal = true)
    (k : TransitionKind) :
    applyTransition k r = (r, some .InvalidTransition) := by
  have hp : r.status ≠ .PENDING := by
    intro hs; rw [hs] at h; cases h
  have hr : r.status ≠ .RUNNING := by
    intro hs; rw [hs] at h; cases h
  cases k <;>
    simp [applyTransition, Run.start, Run.complete, Run.fail, Run.cancel, hp, hr]

/-- Concrete instance of C2: a SUCCESS run rejects a `start` attempt. -/
theorem terminal_runs_never_transition_witness :
    (Run.mk 0 ⟨0, 1⟩ .SUCCESS none (some 5) (some 7) none none).status.isTerminal = true ∧
      applyTransition (.start 9) (Run.mk 0 ⟨0, 1⟩ .SUCCESS none (some 5) (some 7) none none) =
        (Run.mk 0 ⟨0, 1⟩ .SUCCESS none (some 5) (some 7) none none,
          some .InvalidTransition) :=
  ⟨rfl, terminal_runs_never_transition
    (Run.mk 0 ⟨0, 1⟩ .SUCCESS none (some 5) (some 7) none none) rfl (.start 9)⟩

/-! ## Task Queue Bridge — serial-per-entity dispatch (§4.3) -/

/-- Errors surfaced by the orchestration commands on the run ledger. -/
inductive OrchError
  | ConcurrentRunRejected
  | InvalidTransition
  | NotFound
deriving DecidableEq, Repr

/-- Commands that touch the run ledger: Run creation (Orchestrator), dispatch
(Task Queue Bridge) and the worker-driven completions. -/
inductive Cmd
  | create (target : EntityRef)
  | dispatch (rid : Nat) (t : Nat)
  | complete (rid : Nat) (t : Nat) (m : Nat)
  | fail (rid : Nat) (t : Nat) (e : String)
  | cancel (rid : Nat)
deriving DecidableEq, Repr

/-- Look a run up by id. -/
def findRun (runs : List Run) (rid : Nat) : Option Run :=
  runs.find? fun r => r.id = rid

/-- Replace the run with the given id. -/
def updateRun (runs : List Run) (rid : Nat) (r2 : Run) : List Run :=
  runs.map fun r => if r.id = rid then r2 else r

/-- Does some Run targeting `e` sit in RUNNING state? -/
def hasRunningFor (runs : List Run) (e : EntityRef) : Bool :=
  runs.any fun r => r.target = e && r.status = .RUNNING

/-- Modelled from the spec: the dispatch path of the Task Queue Bridge and the
Orchestrator's run creation (neither service is under `src/`).  §4.3: a
dispatch attempt for an entity while one of its Runs is RUNNING is rejected
with `ConcurrentRunRejected`; otherwise the run is started (PENDING→RUNNING);
workers report back through the §4.2 transitions. -/
def stepCmd (runs : List Run) (c : Cmd) : List Run × Option OrchError :=
  match c with
  | .create target =>
      (runs ++ [Run.mk runs.length target .PENDING none none none none none], none)
  | .dispatch rid t =>
      match findRun runs rid with
      | none => (runs, some .NotFound)
      | some r =>
          if hasRunningFor runs r.target then (runs, some .ConcurrentRunRejected)
          else
            match r.start t with
            | .ok r2 => (updateRun runs rid r2, none)
            | .error _ => (runs, some .InvalidTransition)
  | .complete rid t m =>
      match findRun runs rid with
      | none => (runs, some .NotFound)
      | some r =>
          match r.complete t m with
          | .ok r2 => (updateRun runs rid r2, none)
          | .error _ => (runs, some .InvalidTransition)
  | .fail rid t e =>
      match findRun runs rid with
      | none => (runs, some .NotFound)
      | some r =>
          match r.fail t e with
          | .ok r2 => (updateRun runs rid r2, none)
          | .error _ => (runs, some .InvalidTransition)
  | .cancel rid =>
      match findRun runs rid with
      | none => (runs, some .NotFound)
      | some r =>
          match r.cancel with
          | .ok r2 => (updateRun runs rid r2, none)
          | .error _ => (runs, some .InvalidTransition)

/-- The ledger after a whole command sequence, starting empty. -/
def execTrace (cs : List Cmd) : List Run :=
  cs.foldl (fun st c => (stepCmd st c).1) []

/-- Number of RUNNING runs targeting entity `e`. -/
def runningCount (runs : List Run) (e : EntityRef) : Nat :=
  runs.countP fun r => r.target = e && r.status = .RUNNING

/-- The concurrency discipline: at most one RUNNING run per target entity. -/
def AtMostOneRunning (runs : List Run) : Prop :=
  ∀ e, runningCount runs e ≤ 1

/-- Ledger ids are exactly `0, 1, …, length-1`: runs are only appended (with a
fresh id) or updated in place. -/
def IdsOk (runs : List Run) : Prop :=
  runs.map Run.id = List.range runs.length

lemma countP_or_le {α : Type} (l : List α) (p q : α → Bool) :
    l.countP (fun x => p x || q x) ≤ l.countP p + l.countP q := by
  induction l with
  | nil => simp
  | cons a t ih =>
    rw [List.countP_cons, List.countP_cons, List.countP_cons]
    cases hp : p a <;> cases hq : q a <;> simp_all <;> omega

lemma countP_eq_key_le_one {α β : Type} [DecidableEq β] {l : List α} {f : α → β}
    (h : (l.map f).Nodup) (v : β) : l.countP (fun x => f x = v) ≤ 1 := by
  induction l with
  | nil => simp
  | cons a t ih =>
    rw [List.map_cons, List.nodup_cons] at h
    rw [List.countP_cons]
    by_cases hfa : f a = v
    · have hzero : t.countP (fun x => f x = v) = 0 := by
        refine List.countP_eq_zero.mpr fun x hx hfx => ?_
        simp only [decide_eq_true_iff] at hfx
        exact h.1 (List.mem_map.mpr ⟨x, hx, by rw [hfx, hfa]⟩)
      simp [hfa, hzero]
    · simpa [hfa] using ih h.2

lemma transition_id_target :
    ∀ {r r2 : Run},
      ((∃ t, r.start t = .ok r2) ∨ (∃ t m, r.complete t m = .ok r2) ∨
        (∃ t e, r.fail t e = .ok r2) ∨ r.cancel = .ok r2) →
      r2.id = r.id ∧ r2.target = r.target := by
  intro r r2 h
  rcases h with ⟨t, h⟩ | ⟨t, m, h⟩ | ⟨t, e, h⟩ | h <;>
    first
    | (unfold Run.start at h; split at h <;> cases h <;> exact ⟨rfl, rfl⟩)
    | (unfold Run.complete at h; split at h <;> cases h <;> exact ⟨rfl, rfl⟩)
    | (unfold Run.fail at h; split at h <;> cases h <;> exact ⟨rfl, rfl⟩)
    | (unfold Run.cancel at h; split at h <;> cases h <;> exact ⟨rfl, rfl⟩)

lemma start_status {r r2 : Run} {t : Nat} (h : r.start t = .ok r2) :
    r2.status = .RUNNING ∧ r2.target = r.target ∧ r2.id = r.id := by
  unfold Run.start at h
  split at h <;> cases h
  exact ⟨rfl, rfl, rfl⟩

lemma complete_status {r r2 : Run} {t m : Nat} (h : r.complete t m = .ok r2) :
    r2.status = .SUCCESS := by
  unfold Run.complete at h
  split at h <;> cases h
  rfl

lemma fail_status {r r2 : Run} {t : Nat} {e : String} (h : r.fail t e = .ok r2) :
    r2.status = .FAILED := by
  unfold Run.fail at h
  split at h <;> cases h
  rfl

lemma cancel_status {r r2 : Run} (h : r.cancel = .ok r2) :
    r2.status = .CANCELLED := by
  unfold Run.cancel at h
  split at h <;> cases h
  rfl

lemma findRun_id {runs : List Run} {rid : Nat} {r : Run}
    (h : findRun runs rid = some r) : r.id = rid ∧ r ∈ runs := by
  refine ⟨?_, List.mem_of_find?_eq_some h⟩
  have := List.find?_some h
  simpa using this

lemma idsOk_updateRun {runs : List Run} {rid : Nat} {r2 : Run}
    (hids : IdsOk runs) (hid : r2.id = rid) : IdsOk (updateRun runs rid r2) := by
  unfold IdsOk updateRun at *
  rw [List.map_map, List.length_map]
  have : ∀ r ∈ runs, (Run.id ∘ fun r => if r.id = rid then r2 else r) r = Run.id r := by
    intro r _
    by_cases hr : r.id = rid
    · simp [hr, hid]
    · simp [hr]
  rw [List.map_congr_left this, hids]

lemma runningCount_updateRun_not_running {runs : List Run} {rid : Nat} {r2 : Run}
    (hst : r2.status ≠ .RUNNING) (e : EntityRef) :
    runningCount (updateRun runs rid r2) e ≤ runningCount runs e := by
  unfold runningCount updateRun
  rw [List.countP_map]
  refine List.countP_mono_left fun r _ h => ?_
  simp only [Function.comp] at h
  by_cases hr : r.id = rid
  · simp only [hr, if_true] at h
    simp only [Bool.and_eq_true, decide_eq_true_iff] at h
    exact absurd h.2 hst
  · simp only [hr, if_false] at h
    exact h

lemma runningCount_updateRun_other {runs : List Run} {rid : Nat} {r2 : Run}
    {e : EntityRef} (hne : r2.target ≠ e) :
    runningCount (updateRun runs rid r2) e ≤ runningCount runs e := by
  unfold runningCount updateRun
  rw [List.countP_map]
  refine List.countP_mono_left fun r _ h => ?_
  simp only [Function.comp] at h
  by_cases hr : r.id = rid
  · simp only [hr, if_true] at h
    simp only [Bool.and_eq_true, decide_eq_true_iff] at h
    exact absurd h.1 hne
  · simp only [hr, if_false] at h
    exact h

lemma runningCount_updateRun_same {runs : List Run} {rid : Nat} {r2 : Run}
    (hids : IdsOk runs) {e : EntityRef}
    (hzero : runningCount runs e = 0) :
    runningCount (updateRun runs rid r2) e ≤ 1 := by
  unfold runningCount updateRun
  rw [List.countP_map]
  have hnodup : (runs.map Run.id).Nodup := by
    rw [hids]; exact List.nodup_range _
  calc runs.countP ((fun r => r.target = e && decide (r.status = .RUNNING)) ∘
        fun r => if r.id = rid then r2 else r)
      ≤ runs.countP fun r =>
          (r.target = e && decide (r.status = .RUNNING)) || decide (r.id = rid) := by
        refine List.countP_mono_left fun r _ h => ?_
        simp only [Function.comp] at h
        by_cases hr : r.id = rid
        · simp [hr]
        · simp only [hr, if_false] at h
          simp [h]
    _ ≤ (runs.countP fun r => r.target = e && decide (r.status = .RUNNING)) +
          runs.countP fun r => decide (r.id = rid) := countP_or_le _ _ _
    _ ≤ 0 + 1 := by
        refine Nat.add_le_add ?_ ?_
        · exact le_of_eq hzero
        · simpa using countP_eq_key_le_one hnodup rid
    _ ≤ 1 := by omega

lemma hasRunningFor_false_count {runs : List Run} {e : EntityRef}
    (h : hasRunningFor runs e = false) : runningCount runs e = 0 := by
  unfold hasRunningFor at h
  unfold runningCount
  refine List.countP_eq_zero.mpr fun r hr hp => ?_
  have := List.any_eq_false.mp h r hr
  exact this hp

lemma idsOk_append_fresh {runs : List Run} (hids : IdsOk runs) (target : EntityRef) :
    IdsOk (runs ++ [Run.mk runs.length target .PENDING none none none none none]) := by
  unfold IdsOk at *
  rw [List.map_append, hids, List.length_append]
  simp [List.range_succ]

lemma runningCount_append_pending {runs : List Run} (n : Nat) (target : EntityRef)
    (e : EntityRef) :
    runningCount (runs ++ [Run.mk n target .PENDING none none none none none]) e =
      runningCount runs e := by
  unfold runningCount
  rw [List.countP_append]
  simp

lemma stepCmd_preserves_inv {runs : List Run} (c : Cmd)
    (hids : IdsOk runs) (hrun : AtMostOneRunning runs) :
    IdsOk (stepCmd runs c).1 ∧ AtMostOneRunning (stepCmd runs c).1 := by
  cases c with
  | create target =>
    refine ⟨?_, ?_⟩
    · simpa [stepCmd] using idsOk_append_fresh hids target
    · intro e
      simpa [stepCmd, runningCount_append_pending] using hrun e
  | dispatch rid t =>
    cases hfind : findRun runs rid with
    | none => simp only [stepCmd, hfind]; exact ⟨hids, hrun⟩
    | some r =>
      by_cases hbusy : hasRunningFor runs r.target
      · simp only [stepCmd, hfind, hbusy, if_true]
        exact ⟨hids, hrun⟩
      · cases hstart : r.start t with
        | error e2 =>
          simp only [stepCmd, hfind, hbusy, if_false, hstart, Bool.false_eq_true]
          exact ⟨hids, hrun⟩
        | ok r2 =>
          obtain ⟨hst2, htg2, hid2⟩ := start_status hstart
          obtain ⟨hridr, _⟩ := findRun_id hfind
          have hupd : (stepCmd runs (Cmd.dispatch rid t)).1 = updateRun runs rid r2 := by
            simp only [stepCmd, hfind, hbusy, if_false, hstart, Bool.false_eq_true]
          rw [hupd]
          refine ⟨idsOk_updateRun hids (by rw [hid2, hridr]), fun e => ?_⟩
          by_cases he : r2.target = e
          · have hez : runningCount runs e = 0 := by
              have hb : hasRunningFor runs e = false := by
                rw [← he, htg2]
                simpa using hbusy
              exact hasRunningFor_false_count hb
            exact runningCount_updateRun_same hids hez
          · exact le_trans (runningCount_updateRun_other he) (hrun e)
  | complete rid t m =>
    cases hfind : findRun runs rid with
    | none => simp only [stepCmd, hfind]; exact ⟨hids, hrun⟩
    | some r =>
      cases hc : r.complete t m with
      | error e2 => simp only [stepCmd, hfind, hc]; exact ⟨hids, hrun⟩
      | ok r2 =>
        have hid2 : r2.id = r.id :=
          (transition_id_target (Or.inr (Or.inl ⟨t, m, hc⟩))).1
        obtain ⟨hridr, _⟩ := findRun_id hfind
        have hst2 : r2.status = .SUCCESS := complete_status hc
        simp only [stepCmd, hfind, hc]
        refine ⟨idsOk_updateRun hids (by rw [hid2, hridr]), fun e => ?_⟩
        exact le_trans (runningCount_updateRun_not_running (by rw [hst2]; intro h; cases h) e)
          (hrun e)
  | fail rid t e0 =>
    cases hfind : findRun runs rid with
    | none => simp only [stepCmd, hfind]; exact ⟨hids, hrun⟩
    | some r =>
      cases hc : r.fail t e0 with
      | error e2 => simp only [stepCmd, hfind, hc]; exact ⟨hids, hrun⟩
      | ok r2 =>
        have hid2 : r2.id = r.id :=
          (transition_id_target (Or.inr (Or.inr (Or.inl ⟨t, e0, hc⟩)))).1
        obtain ⟨hridr, _⟩ := findRun_id hfind
        have hst2 : r2.status = .FAILED := fail_status hc
        simp only [stepCmd, hfind, hc]
        refine ⟨idsOk_updateRun hids (by rw [hid2, hridr]), fun e => ?_⟩
        exact le_trans (runningCount_updateRun_not_running (by rw [hst2]; intro h; cases h) e)
          (hrun e)
  | cancel rid =>
    cases hfind : findRun runs rid with
    | none => simp only [stepCmd, hfind]; exact ⟨hids, hrun⟩
    | some r =>
      cases hc : r.cancel with
      | error e2 => simp only [stepCmd, hfind, hc]; exact ⟨hids, hrun⟩
      | ok r2 =>
        have hid2 : r2.id = r.id :=
          (transition_id_target (Or.inr (Or.inr (Or.inr hc)))).1
        obtain ⟨hridr, _⟩ := findRun_id hfind
        have hst2 : r2.status = .CANCELLED := cancel_status hc
        simp only [stepCmd, hfind, hc]
        refine ⟨idsOk_updateRun hids (by rw [hid2, hridr]), fun e => ?_⟩
        exact le_trans (runningCount_updateRun_not_running (by rw [hst2]; intro h; cases h) e)
          (hrun e)

lemma execTrace_inv (cs : List Cmd) :
    IdsOk (execTrace cs) ∧ AtMostOneRunning (execTrace cs) := by
  have general : ∀ (l : List Cmd) (st : List Run), IdsOk st → AtMostOneRunning st →
      IdsOk (l.foldl (fun st c => (stepCmd st c).1) st) ∧
        AtMostOneRunning (l.foldl (fun st c => (stepCmd st c).1) st) := by
    intro l
    induction l with
    | nil => exact fun st h1 h2 => ⟨h1, h2⟩
    | cons c t ih =>
      intro st h1 h2
      obtain ⟨h1', h2'⟩ := stepCmd_preserves_inv c h1 h2
      exact ih _ h1' h2'
  refine general cs [] ?_ ?_
  · rfl
  · intro e
    simp [runningCount]

/-- **C3.** For every target Entity, at most one Run for that Entity is in
RUNNING state in any ledger reachable by orchestration commands; a dispatch
attempt for an Entity while one of its Runs is RUNNING returns
`ConcurrentRunRejected` and creates no second RUNNING Run (the ledger is left
unchanged). -/
theorem at_most_one_running_per_entity (cs : List Cmd) :
    AtMostOneRunning (execTrace cs) ∧
      ∀ rid t r, findRun (execTrace cs) rid = some r →
        hasRunningFor (execTrace cs) r.target = true →
        stepCmd (execTrace cs) (.dispatch rid t) =
          (execTrace cs, some .ConcurrentRunRejected) := by
  refine ⟨(execTrace_inv cs).2, fun rid t r hfind hbusy => ?_⟩
  simp only [stepCmd, hfind, hbusy, if_true]

/-- Concrete instance of C3: entity `(0,1)` has a RUNNING run (id 0); a
dispatch attempt for its second, PENDING run (id 1) is rejected and the
ledger is unchanged. -/
theorem at_most_one_running_per_entity_witness :
    findRun (execTrace [Cmd.create ⟨0, 1⟩, Cmd.dispatch 0 5, Cmd.create ⟨0, 1⟩]) 1 =
        some (Run.mk 1 ⟨0, 1⟩ .PENDING none none none none none) ∧
      hasRunningFor (execTrace [Cmd.create ⟨0, 1⟩, Cmd.dispatch 0 5, Cmd.create ⟨0, 1⟩])
          (Run.mk 1 ⟨0, 1⟩ .PENDING none none none none none).target = true ∧
      stepCmd (execTrace [Cmd.create ⟨0, 1⟩, Cmd.dispatch 0 5, Cmd.create ⟨0, 1⟩])
          (.dispatch 1 9) =
        (execTrace [Cmd.create ⟨0, 1⟩, Cmd.dispatch 0 5, Cmd.create ⟨0, 1⟩],
          some .ConcurrentRunRejected) := by
  refine ⟨by decide, by decide, ?_⟩
  exact (at_most_one_running_per_entity
    [Cmd.create ⟨0, 1⟩, Cmd.dispatch 0 5, Cmd.create ⟨0, 1⟩]).2 1 9
    (Run.mk 1 ⟨0, 1⟩ .PENDING none none none none none) (by decide) (by decide)

/-! ## Dependency Graph — topological order (§4.1) -/

/-- Error of `topological_order` on a graph that somehow contains a cycle
(defensive; unreachable when `validate_edge` guards every insertion). -/
inductive GraphError
  | CycleDetected
deriving DecidableEq, Repr

/-- A node is ready for emission when no live edge points into it from a node
that is still waiting. -/
def readyB (edges : List Edge) (remaining : List EntityRef) (v : EntityRef) : Bool :=
  edges.all fun e => !(decide (e.downstream = v) && decide (e.upstream ∈ remaining))

/-- The node with the least entity id (the first such node on ties). -/
def pickMin (l : List EntityRef) : Option EntityRef :=
  match l with
  | [] => none
  | x :: xs => some (xs.foldl (fun best v => if v.id < best.id then v else best) x)

/-- Kahn's algorithm with deterministic tie-break: repeatedly emit the
ready node with the least entity id. -/
def topoLoop (edges : List Edge) : Nat → List EntityRef → List EntityRef →
    Except GraphError (List EntityRef)
  | 0, remaining, acc => if remaining = [] then .ok acc else .error .CycleDetected
  | fuel + 1, remaining, acc =>
    if remaining = [] then .ok acc
    else
      match pickMin (remaining.filter (readyB edges remaining)) with
      | none => .error .CycleDetected
      | some v => topoLoop edges fuel (remaining.erase v) (acc ++ [v])

/-- Modelled from the spec: `topological_order` of the Dependency Graph
(`dependency_helpers` is not under `src/`).  §4.1: dependency order — every
node after all its upstream nodes — with ties (nodes with no relative order
constraint among the currently dispatchable ones) broken by ascending entity
id for determinism; `Err(CycleDetected)` on a cyclic graph. -/
def topological_order (nodes : List EntityRef) (edges : List Edge) :
    Except GraphError (List EntityRef) :=
  topoLoop edges nodes.length nodes []

lemma readyB_iff {edges : List Edge} {remaining : List EntityRef} {v : EntityRef} :
    readyB edges remaining v = true ↔
      ∀ e ∈ edges, e.downstream = v → e.upstream ∉ remaining := by
  unfold readyB
  rw [List.all_eq_true]
  constructor
  · intro h e he hd hu
    have := h e he
    simp [hd, hu] at this
  · intro h e he
    by_cases hd : e.downstream = v
    · have := h e he hd
      simp [hd, this]
    · simp [hd]

lemma readyB_congr {edges : List Edge} {r1 r2 : List EntityRef}
    (h : ∀ x, x ∈ r1 ↔ x ∈ r2) (v : EntityRef) :
    readyB edges r1 v = readyB edges r2 v := by
  have key : ∀ s1 s2 : List EntityRef, (∀ x, x ∈ s1 ↔ x ∈ s2) →
      readyB edges s1 v = true → readyB edges s2 v = true := by
    intro s1 s2 hs hr
    exact readyB_iff.mpr fun e he hd hu =>
      readyB_iff.mp hr e he hd ((hs e.upstream).mpr hu)
  by_cases hb : readyB edges r1 v = true
  · rw [hb, key r1 r2 h hb]
  · have hb2 : readyB edges r2 v ≠ true := fun hc =>
      hb (key r2 r1 (fun x => (h x).symm) hc)
    rw [Bool.eq_false_iff.mpr hb, Bool.eq_false_iff.mpr hb2]

lemma foldl_min_mem (xs : List EntityRef) (x : EntityRef) :
    xs.foldl (fun best v => if v.id < best.id then v else best) x = x ∨
      xs.foldl (fun best v => if v.id < best.id then v else best) x ∈ xs := by
  induction xs generalizing x with
  | nil => exact Or.inl rfl
  | cons a t ih =>
    rw [List.foldl_cons]
    rcases ih (if a.id < x.id then a else x) with h | h
    · rw [h]
      by_cases ha : a.id < x.id
      · rw [if_pos ha]
        exact Or.inr (List.mem_cons_self _ _)
      · rw [if_neg ha]
        exact Or.inl rfl
    · exact Or.inr (List.mem_cons_of_mem _ h)

lemma foldl_min_le (xs : List EntityRef) (x : EntityRef) :
    (xs.foldl (fun best v => if v.id < best.id then v else best) x).id ≤ x.id ∧
      ∀ w ∈ xs, (xs.foldl (fun best v => if v.id < best.id then v else best) x).id ≤ w.id := by
  induction xs generalizing x with
  | nil => exact ⟨Nat.le_refl _, fun w hw => absurd hw (List.not_mem_nil w)⟩
  | cons a t ih =>
    rw [List.foldl_cons]
    by_cases ha : a.id < x.id
    · rw [if_pos ha]
      obtain ⟨h1, h2⟩ := ih a
      refine ⟨le_trans h1 (Nat.le_of_lt ha), fun w hw => ?_⟩
      rcases List.mem_cons.mp hw with rfl | hwt
      · exact h1
      · exact h2 w hwt
    · rw [if_neg ha]
      obtain ⟨h1, h2⟩ := ih x
      refine ⟨h1, fun w hw => ?_⟩
      rcases List.mem_cons.mp hw with rfl | hwt
      · exact le_trans h1 (Nat.le_of_not_lt ha)
      · exact h2 w hwt

lemma pickMin_spec {l : List EntityRef} {v : EntityRef} (h : pickMin l = some v) :
    v ∈ l ∧ ∀ w ∈ l, v.id ≤ w.id := by
  cases l with
  | nil => cases h
  | cons x xs =>
    unfold pickMin at h
    have hv : xs.foldl (fun best v => if v.id < best.id then v else best) x = v :=
      Option.some.inj h
    constructor
    · rcases foldl_min_mem xs x with h1 | h1
      · rw [hv] at h1
        rw [← h1]
        exact List.mem_cons_self _ _
      · rw [hv] at h1
        exact List.mem_cons_of_mem _ h1
    · intro w hw
      obtain ⟨h1, h2⟩ := foldl_min_le xs x
      rw [hv] at h1 h2
      rcases List.mem_cons.mp hw with rfl | hwt
      · exact h1
      · exact h2 w hwt

lemma pickMin_of_ne_nil {l : List EntityRef} (h : l ≠ []) : ∃ v, pickMin l = some v := by
  cases l with
  | nil => exact absurd rfl h
  | cons x xs => exact ⟨_, rfl⟩

/-- In an acyclic graph, a non-empty waiting set always contains a node with
no incoming edge from the waiting set (a minimal node). -/
lemma exists_ready {edges : List Edge} (hac : Acyclic edges) (remaining : List EntityRef)
    (hne : remaining ≠ []) :
    ∃ v ∈ remaining, readyB edges remaining v = true := by
  classical
  by_contra hall
  push_neg at hall
  have hblock : ∀ v ∈ remaining, ∃ e, e ∈ edges ∧ e.downstream = v ∧
      e.upstream ∈ remaining := by
    intro v hv
    by_contra hno
    push_neg at hno
    refine absurd (readyB_iff.mpr fun e he hd hu => ?_) (hall v hv)
    exact absurd hu (hno e he hd)
  let f : EntityRef → EntityRef := fun v =>
    if h : ∃ e, e ∈ edges ∧ e.downstream = v ∧ e.upstream ∈ remaining
    then (Classical.choose h).upstream else v
  have hf : ∀ v ∈ remaining, f v ∈ remaining ∧ HasEdge edges (f v) v := by
    intro v hv
    have hex := hblock v hv
    have hfv : f v = (Classical.choose hex).upstream := dif_pos hex
    obtain ⟨hce, hcd, hcu⟩ := Classical.choose_spec hex
    rw [hfv]
    refine ⟨hcu, ?_⟩
    show Edge.mk (Classical.choose hex).upstream v ∈ edges
    have hEdge : Edge.mk (Classical.choose hex).upstream v =
        Edge.mk (Classical.choose hex).upstream (Classical.choose hex).downstream := by
      rw [hcd]
    rw [hEdge]
    exact hce
  have hv0 : remaining.head hne ∈ remaining := List.head_mem hne
  let chain : Nat → EntityRef := fun n => f^[n] (remaining.head hne)
  have hchain_mem : ∀ n, chain n ∈ remaining := by
    intro n
    induction n with
    | zero => exact hv0
    | succ k ih =>
      show f^[k + 1] _ ∈ remaining
      rw [Function.iterate_succ_apply']
      exact (hf _ ih).1
  have hchain_edge : ∀ n, HasEdge edges (chain (n + 1)) (chain n) := by
    intro n
    show HasEdge edges (f^[n + 1] _) (f^[n] _)
    rw [Function.iterate_succ_apply']
    exact (hf _ (hchain_mem n)).2
  have hreach : ∀ k a, Reach edges (chain (a + k)) (chain a) := by
    intro k
    induction k with
    | zero => exact fun a => Reach.refl _
    | succ m ih =>
      intro a
      have := hchain_edge (a + m)
      exact Reach.step this (ih a)
  obtain ⟨i, _, j, _, hij, heq⟩ :=
    Finset.exists_ne_map_eq_of_card_lt_of_maps_to
      (s := (Finset.univ : Finset (Fin (remaining.length + 1))))
      (t := remaining.toFinset) (f := fun k => chain k.val)
      (by
        have := remaining.toFinset_card_le
        simp only [Finset.card_univ, Fintype.card_fin]
        omega)
      (fun a _ => List.mem_toFinset.mpr (hchain_mem a.val))
  rcases lt_or_gt_of_ne hij with hlt | hlt
  · obtain ⟨k, hk⟩ : ∃ k, j.val = i.val + k + 1 := ⟨j.val - i.val - 1, by omega⟩
    refine hac (chain j.val) ⟨chain (i.val + k), ?_, ?_⟩
    · have := hchain_edge (i.val + k)
      rwa [← hk] at this
    · rw [← heq]
      exact hreach k i.val
  · obtain ⟨k, hk⟩ : ∃ k, i.val = j.val + k + 1 := ⟨i.val - j.val - 1, by omega⟩
    refine hac (chain i.val) ⟨chain (j.val + k), ?_, ?_⟩
    · have := hchain_edge (j.val + k)
      rwa [← hk] at this
    · rw [heq]
      exact hreach k j.val

/-- Full specification of the Kahn loop: it succeeds, emits a permutation of
the waiting set, every emitted node was ready when emitted, and each emission
is the least-id ready node. -/
lemma topoLoop_spec {edges : List Edge} (hac : Acyclic edges) :
    ∀ (fuel : Nat) (remaining acc : List EntityRef), remaining.length ≤ fuel →
      ∃ tail, topoLoop edges fuel remaining acc = .ok (acc ++ tail) ∧
        tail.Perm remaining ∧
        (∀ l1 v l2, tail = l1 ++ v :: l2 →
          ∀ e ∈ edges, e.downstream = v → e.upstream ∉ v :: l2) ∧
        (∀ l1 v l2, tail = l1 ++ v :: l2 → ∀ w ∈ l2,
          (∀ e ∈ edges, e.downstream = w → e.upstream ∉ v :: l2) → v.id ≤ w.id) := by
  intro fuel
  induction fuel with
  | zero =>
    intro remaining acc hlen
    have hrem : remaining = [] := List.eq_nil_of_length_eq_zero (Nat.le_zero.mp hlen)
    subst hrem
    refine ⟨[], by simp [topoLoop], List.Perm.refl _, ?_, ?_⟩
    · intro l1 v l2 habs
      exact absurd habs.symm (List.append_ne_nil_of_right_ne_nil l1 (by simp))
    · intro l1 v l2 habs
      exact absurd habs.symm (List.append_ne_nil_of_right_ne_nil l1 (by simp))
  | succ n ih =>
    intro remaining acc hlen
    by_cases hne : remaining = []
    · subst hne
      refine ⟨[], by simp [topoLoop], List.Perm.refl _, ?_, ?_⟩
      · intro l1 v l2 habs
        exact absurd habs.symm (List.append_ne_nil_of_right_ne_nil l1 (by simp))
      · intro l1 v l2 habs
        exact absurd habs.symm (List.append_ne_nil_of_right_ne_nil l1 (by simp))
    · obtain ⟨v0, hv0r, hv0ready⟩ := exists_ready hac remaining hne
      have hv0f : v0 ∈ remaining.filter (readyB edges remaining) :=
        List.mem_filter.mpr ⟨hv0r, hv0ready⟩
      obtain ⟨v, hpick⟩ := pickMin_of_ne_nil (List.ne_nil_of_mem hv0f)
      obtain ⟨hvf, hvmin⟩ := pickMin_spec hpick
      obtain ⟨hvr, hvready⟩ := List.mem_filter.mp hvf
      have hstep : topoLoop edges (n + 1) remaining acc =
          topoLoop edges n (remaining.erase v) (acc ++ [v]) := by
        simp only [topoLoop, hne, if_false, hpick]
      have hlen2 : (remaining.erase v).length ≤ n := by
        rw [List.length_erase_of_mem hvr]
        have : 1 ≤ remaining.length := by
          cases remaining with
          | nil => exact absurd rfl hne
          | cons a t => simp
        omega
      obtain ⟨tail2, hok, hperm2, hA2, hB2⟩ := ih (remaining.erase v) (acc ++ [v]) hlen2
      have hperm : (v :: tail2).Perm remaining :=
        ((hperm2.cons v).trans (List.perm_cons_erase hvr).symm)
      have hmem : ∀ x, x ∈ v :: tail2 ↔ x ∈ remaining := fun x => hperm.mem_iff
      refine ⟨v :: tail2, ?_, hperm, ?_, ?_⟩
      · rw [hstep, hok, List.append_assoc]
        rfl
      · intro l1 w l2 hdec e he hd
        cases l1 with
        | nil =>
          cases hdec
          intro hmem2
          have := readyB_iff.mp hvready e he hd
          exact this ((hmem e.upstream).mp hmem2)
        | cons a l1' =>
          injection hdec with h1 h2
          exact hA2 l1' w l2 h2 e he hd
      · intro l1 w l2 hdec z hz hzready
        cases l1 with
        | nil =>
          cases hdec
          have hzrem : z ∈ remaining := (hmem z).mp (List.mem_cons_of_mem _ hz)
          have hzreadyB : readyB edges remaining z = true := by
            refine readyB_iff.mpr fun e he hd hu => ?_
            exact hzready e he hd ((hmem e.upstream).mpr hu)
          have hzf : z ∈ remaining.filter (readyB edges remaining) :=
            List.mem_filter.mpr ⟨hzrem, hzreadyB⟩
          exact hvmin z hzf
        | cons a l1' =>
          injection hdec with h1 h2
          exact hB2 l1' w l2 h2 z hz hzready

/-- An acyclicity certificate checkable by evaluation: no edge's upstream is
reachable from its downstream. -/
lemma acyclic_of_no_reach (edges : List Edge)
    (h : ∀ e ∈ edges, reachableB edges e.downstream e.upstream = false) :
    Acyclic edges := by
  rintro v ⟨b, hvb, hbv⟩
  have hc := reach_complete hbv
  have := h _ hvb
  simp only [this] at hc
  cases hc

/-- **C4.** For every acyclic dependency graph, `topological_order` succeeds
and returns a sequence containing each node exactly once, in which every node
appears after all of its upstream nodes, and in which each emitted node is
the one with the least entity id among the nodes that are ready at that point
(the deterministic ascending-entity-id tie-break between nodes with no
relative order constraint). -/
theorem topological_order_correct (nodes : List EntityRef) (edges : List Edge)
    (hnd : nodes.Nodup) (hac : Acyclic edges) :
    ∃ out, topological_order nodes edges = .ok out ∧
      out.Perm nodes ∧ out.Nodup ∧
      (∀ e ∈ edges, e.upstream ∈ nodes → ∀ l1 l2, out = l1 ++ e.downstream :: l2 →
        e.upstream ∈ l1) ∧
      (∀ l1 v l2, out = l1 ++ v :: l2 → ∀ w ∈ l2,
        (∀ e ∈ edges, e.downstream = w → e.upstream ∉ v :: l2) → v.id ≤ w.id) := by
  obtain ⟨tail, hok, hperm, hA, hB⟩ :=
    topoLoop_spec hac nodes.length nodes [] (Nat.le_refl _)
  refine ⟨tail, by simpa [topological_order] using hok, hperm, hperm.symm.nodup hnd, ?_, hB⟩
  intro e he hup l1 l2 hdec
  have hnotin : e.upstream ∉ e.downstream :: l2 := hA l1 e.downstream l2 hdec e he rfl
  have : e.upstream ∈ tail := hperm.mem_iff.mpr hup
  rw [hdec] at this
  rcases List.mem_append.mp this with h1 | h1
  · exact h1
  · exact absurd h1 hnotin

/-- Concrete instance of C4: nodes `{1, 2, 3}` with the single edge `3 → 1`
give the order `[2, 3, 1]`. -/
theorem topological_order_correct_witness :
    ([⟨0, 1⟩, ⟨0, 2⟩, ⟨0, 3⟩] : List EntityRef).Nodup ∧
      Acyclic [Edge.mk ⟨0, 3⟩ ⟨0, 1⟩] ∧
      ∃ out, topological_order [⟨0, 1⟩, ⟨0, 2⟩, ⟨0, 3⟩] [Edge.mk ⟨0, 3⟩ ⟨0, 1⟩] = .ok out ∧
        out.Perm [⟨0, 1⟩, ⟨0, 2⟩, ⟨0, 3⟩] ∧ out.Nodup ∧
        (∀ e ∈ [Edge.mk ⟨0, 3⟩ ⟨0, 1⟩], e.upstream ∈ ([⟨0, 1⟩, ⟨0, 2⟩, ⟨0, 3⟩] : List EntityRef) →
          ∀ l1 l2, out = l1 ++ e.downstream :: l2 → e.upstream ∈ l1) ∧
        (∀ l1 v l2, out = l1 ++ v :: l2 → ∀ w ∈ l2,
          (∀ e ∈ [Edge.mk ⟨0, 3⟩ ⟨0, 1⟩], e.downstream = w → e.upstream ∉ v :: l2) →
            v.id ≤ w.id) :=
  ⟨by decide, acyclic_of_no_reach _ (by decide),
    topological_order_correct [⟨0, 1⟩, ⟨0, 2⟩, ⟨0, 3⟩] [Edge.mk ⟨0, 3⟩ ⟨0, 1⟩]
      (by decide) (acyclic_of_no_reach _ (by decide))⟩

/-! ## Schedule Registry — cron validation, `sync`, misfire policy (§4.4) -/

/-- Whitespace characters separating cron fields. -/
def isWs (c : Char) : Bool := c = ' ' || c = '\t' || c = '\n' || c = '\r'

/-- Split a character stream on whitespace, dropping empty fields. -/
def splitWsAux : List Char → List Char → List (List Char)
  | [], cur => if cur = [] then [] else [cur.reverse]
  | c :: cs, cur =>
      if isWs c then
        if cur = [] then splitWsAux cs []
        else cur.reverse :: splitWsAux cs []
      else splitWsAux cs (c :: cur)

/-- The whitespace-separated fields of a cron expression. -/
def cronFields (s : String) : List (List Char) := splitWsAux s.data []

/-- Parse an all-digit field (`none` on a non-digit or an empty field). -/
def parseDigits : List Char → Option Nat → Option Nat
  | [], acc => acc
  | c :: cs, acc =>
      if '0' ≤ c ∧ c ≤ '9' then
        parseDigits cs (some ((acc.getD 0) * 10 + (c.toNat - '0'.toNat)))
      else none

/-- A cron field is `*` or a numeral within the field's range. -/
def fieldOk (f : List Char) (lo hi : Nat) : Bool :=
  f = ['*'] ||
    match parseDigits f none with
    | some k => lo ≤ k && k ≤ hi
    | none => false

/-- Modelled from the spec: the cron validation of `schedule_service` /
`scheduler_integration` (not under `src/`).  §6: exactly 5 whitespace-separated
fields — minute 0–59, hour 0–23, day-of-month 1–31, month 1–12,
day-of-week 0–6. -/
def cronOk (s : String) : Bool :=
  match cronFields s with
  | [mi, h, dom, mon, dow] =>
      fieldOk mi 0 59 && fieldOk h 0 23 && fieldOk dom 1 31 &&
        fieldOk mon 1 12 && fieldOk dow 0 6
  | _ => false

/-- A cron schedule row: target, 5-field cron expression, timezone, activity
flag and soft-deletion flag. -/
structure Schedule where
  id : Nat
  target : EntityRef
  cron : String
  timezone : String
  is_active : Bool
  deleted : Bool
deriving DecidableEq, Repr

/-- One persisted trigger-store job (`SQLAlchemyJobStore` row), keyed by the
schedule id (`schedule_{id}`). -/
structure TriggerJob where
  schedule_id : Nat
  cron : String
  timezone : String
deriving DecidableEq, Repr

/-- Error of `sync(schedule)`. -/
inductive SyncError
  | InvalidCron
deriving DecidableEq, Repr

/-- Modelled from the spec: `sync_schedule` of the APScheduler bridge (not
under `src/`; DESIGN.md §Job Lifecycle: adds/updates a `CronTrigger` job with
ID `schedule_{id}` if `is_active`, removes it if inactive; §4.4: malformed
cron is rejected with `InvalidCron` at sync time).  Re-registration replaces
the job with the same key. -/
def sync_schedule (store : List TriggerJob) (s : Schedule) :
    Except SyncError (List TriggerJob) :=
  if cronOk s.cron = false then .error .InvalidCron
  else if s.is_active && !s.deleted then
    .ok ((store.filter fun j => j.schedule_id ≠ s.id) ++ [⟨s.id, s.cron, s.timezone⟩])
  else
    .ok (store.filter fun j => j.schedule_id ≠ s.id)

/-- **C5.** `sync(schedule)` is idempotent: for every schedule (with a valid
cron expression, active and not deleted), syncing twice with identical
schedule content leaves exactly one registered trigger keyed by the schedule's
id — the second call replaces rather than duplicates the first
registration. -/
theorem sync_schedule_idempotent (store : List TriggerJob) (s : Schedule)
    (hcron : cronOk s.cron = true) (hact : s.is_active = true)
    (hdel : s.deleted = false) :
    ∃ st1, sync_schedule store s = .ok st1 ∧
      sync_schedule st1 s = .ok st1 ∧
      st1.countP (fun j => j.schedule_id = s.id) = 1 := by
  refine ⟨(store.filter fun j => j.schedule_id ≠ s.id) ++ [⟨s.id, s.cron, s.timezone⟩],
    ?_, ?_, ?_⟩
  · unfold sync_schedule
    rw [hcron, hact, hdel]
    rfl
  · unfold sync_schedule
    rw [hcron, hact, hdel]
    show Except.ok (List.filter _ _ ++ _) = _
    rw [List.filter_append, List.filter_filter]
    have h1 : (List.filter (fun j => decide (j.schedule_id ≠ s.id) &&
        decide (j.schedule_id ≠ s.id)) store) =
        store.filter fun j => j.schedule_id ≠ s.id := by
      refine List.filter_congr fun j _ => ?_
      cases h : decide (j.schedule_id ≠ s.id) <;> simp [h]
    have h2 : List.filter (fun j => decide (j.schedule_id ≠ s.id))
        [TriggerJob.mk s.id s.cron s.timezone] = [] := by
      simp
    rw [h1, h2, List.append_nil]
  · rw [List.countP_append]
    have h1 : (store.filter fun j => j.schedule_id ≠ s.id).countP
        (fun j => j.schedule_id = s.id) = 0 := by
      refine List.countP_eq_zero.mpr fun j hj => ?_
      have := (List.mem_filter.mp hj).2
      simp only [decide_eq_true_iff] at this ⊢
      exact this
    rw [h1]
    simp

/-- Concrete instance of C5: syncing schedule 7 (`0 3 * * *`, active) twice
onto an empty trigger store registers exactly one trigger. -/
theorem sync_schedule_idempotent_witness :
    cronOk "0 3 * * *" = true ∧
      ∃ st1, sync_schedule [] (Schedule.mk 7 ⟨0, 1⟩ "0 3 * * *" "UTC" true false) = .ok st1 ∧
        sync_schedule st1 (Schedule.mk 7 ⟨0, 1⟩ "0 3 * * *" "UTC" true false) = .ok st1 ∧
        st1.countP (fun j => j.schedule_id = 7) = 1 :=
  ⟨by decide,
    sync_schedule_idempotent [] (Schedule.mk 7 ⟨0, 1⟩ "0 3 * * *" "UTC" true false)
      (by decide) rfl rfl⟩

/-- **C8.** `sync` rejects a cron expression with `InvalidCron` at sync time
exactly when it is not 5 whitespace-separated fields with minute 0–59,
hour 0–23, day-of-month 1–31, month 1–12 and day-of-week 0–6 (`cronOk`); a
store whose jobs all carry valid cron expressions keeps that property across
every successful sync, so a malformed expression never survives to fire
time. -/
theorem cron_rejected_at_sync (store : List TriggerJob) (s : Schedule) :
    (sync_schedule store s = .error .InvalidCron ↔ cronOk s.cron = false) ∧
      (∀ st1, sync_schedule store s = .ok st1 →
        (∀ j ∈ store, cronOk j.cron = true) → ∀ j ∈ st1, cronOk j.cron = true) := by
  constructor
  · constructor
    · intro h
      by_contra hc
      rw [Bool.not_eq_false] at hc
      unfold sync_schedule at h
      rw [hc] at h
      simp only [Bool.true_eq_false, if_false] at h
      split at h <;> cases h
    · intro h
      unfold sync_schedule
      rw [h]
      rfl
  · intro st1 hok hstore j hj
    unfold sync_schedule at hok
    by_cases hc : cronOk s.cron = false
    · rw [hc] at hok
      cases hok
    · rw [Bool.not_eq_false] at hc
      rw [hc] at hok
      simp only [Bool.true_eq_false, if_false] at hok
      split at hok
      · cases hok
        rcases List.mem_append.mp hj with h1 | h1
        · exact hstore j (List.mem_of_mem_filter h1)
        · rw [List.mem_singleton.mp h1]
          exact hc
      · cases hok
        exact hstore j (List.mem_of_mem_filter hj)

/-- Concrete instance of C8: minute field 61 is out of range, so syncing the
schedule is rejected with `InvalidCron`. -/
theorem cron_rejected_at_sync_witness :
    cronOk "61 3 * * *" = false ∧
      sync_schedule [] (Schedule.mk 7 ⟨0, 1⟩ "61 3 * * *" "UTC" true false) =
        .error .InvalidCron :=
  ⟨by decide,
    (cron_rejected_at_sync [] (Schedule.mk 7 ⟨0, 1⟩ "61 3 * * *" "UTC" true false)).1.mpr
      (by decide)⟩

/-- A trigger-store job as the scheduler's timer sees it: the schedule's
abstract fire-time sequence and the persisted next-run time. -/
structure SchedulerJob where
  schedule_id : Nat
  fire_times : List Nat
  next_run_time : Nat
deriving DecidableEq, Repr

/-- Job default of the scheduler (DESIGN.md §Job Defaults): `coalesce=True`. -/
def job_default_coalesce : Bool := true

/-- Job default of the scheduler (DESIGN.md §Job Defaults):
`misfire_grace_time=300s`. -/
def misfire_grace_time : Nat := 300

/-- The fire times that came due while the process was down: at or after the
persisted next-run time, and not after the wakeup instant. -/
def dueFires (j : SchedulerJob) (now : Nat) : List Nat :=
  j.fire_times.filter fun t => j.next_run_time ≤ t && t ≤ now

/-- Modelled from the spec: the scheduler's wakeup handling of missed fire
times (APScheduler configuration, DESIGN.md §Job Defaults; the bridge is not
under `src/`).  With `coalesce` one catch-up fire is issued for the latest due
time — and only within the misfire grace window; without it, one fire per
missed tick. -/
def firesOnWakeup (coalesce : Bool) (grace : Nat) (j : SchedulerJob) (now : Nat) :
    List Nat :=
  let due := dueFires j now
  if coalesce then
    match due.max? with
    | none => []
    | some t => if now - t ≤ grace then [t] else []
  else due

/-- **C7.** If the scheduling process was down across one or more fire times
of a schedule, at most one catch-up fire is issued for that schedule on
restart (coalesce is the configured default), never one fire per missed
tick. -/
theorem misfires_coalesced (j : SchedulerJob) (now : Nat)
    (hmissed : 1 ≤ (dueFires j now).length) :
    (firesOnWakeup job_default_coalesce misfire_grace_time j now).length ≤ 1 ∧
      ∀ t ∈ firesOnWakeup job_default_coalesce misfire_grace_time j now,
        t ∈ dueFires j now := by
  unfold firesOnWakeup job_default_coalesce
  simp only [if_true]
  cases hmax : (dueFires j now).max? with
  | none => exact ⟨by simp, by simp⟩
  | some t =>
    by_cases hg : now - t ≤ misfire_grace_time
    · simp only [hg, if_true]
      refine ⟨by simp, fun t2 ht2 => ?_⟩
      rw [List.mem_singleton.mp ht2]
      exact List.max?_mem (fun a b => max_choice a b) hmax
    · simp [hg]

/-- Concrete instance of C7: three missed fire times produce exactly one
catch-up fire (for the latest one), not three. -/
theorem misfires_coalesced_witness :
    1 ≤ (dueFires (SchedulerJob.mk 7 [100, 200, 300, 900] 50) 400).length ∧
      (firesOnWakeup job_default_coalesce misfire_grace_time
          (SchedulerJob.mk 7 [100, 200, 300, 900] 50) 400).length ≤ 1 ∧
      ∀ t ∈ firesOnWakeup job_default_coalesce misfire_grace_time
          (SchedulerJob.mk 7 [100, 200, 300, 900] 50) 400,
        t ∈ dueFires (SchedulerJob.mk 7 [100, 200, 300, 900] 50) 400 :=
  ⟨by decide, misfires_coalesced (SchedulerJob.mk 7 [100, 200, 300, 900] 50) 400 (by decide)⟩

/-! ## Orchestrator — DAG-group execution and failure propagation (§4.5) -/

/-- Terminal outcome a worker reports for a RUNNING run. -/
inductive Outcome
  | success
  | failed
  | cancelled
deriving DecidableEq, Repr

/-- The Run status a reported outcome transitions to. -/
def Outcome.toStatus : Outcome → RunStatus
  | .success => .SUCCESS
  | .failed => .FAILED
  | .cancelled => .CANCELLED

/-- Status of a group member (the group is an association list node ↦
status). -/
def statusOf (g : List (EntityRef × RunStatus)) (v : EntityRef) : Option RunStatus :=
  (g.find? fun p => p.1 = v).map Prod.snd

/-- Overwrite one member's status. -/
def setStatus (g : List (EntityRef × RunStatus)) (v : EntityRef) (st : RunStatus) :
    List (EntityRef × RunStatus) :=
  g.map fun p => if p.1 = v then (p.1, st) else p

/-- A node may be dispatched when every upstream that belongs to the group
has finished in SUCCESS. -/
def upstreamsDone (edges : List Edge) (g : List (EntityRef × RunStatus))
    (v : EntityRef) : Bool :=
  edges.all fun e =>
    !(decide (e.downstream = v)) ||
      (match statusOf g e.upstream with
       | some st => decide (st = .SUCCESS)
       | none => true)

/-- Dispatch every PENDING node whose upstream set is fully successful. -/
def dispatchReady (edges : List Edge) (g : List (EntityRef × RunStatus)) :
    List (EntityRef × RunStatus) :=
  g.map fun p =>
    if decide (p.2 = .PENDING) && upstreamsDone edges g p.1 then (p.1, .RUNNING) else p

/-- Transition every not-yet-dispatched (PENDING) node downstream of `v`
directly to CANCELLED. -/
def cancelDownstream (edges : List Edge) (g : List (EntityRef × RunStatus))
    (v : EntityRef) : List (EntityRef × RunStatus) :=
  g.map fun p =>
    if reachableB edges v p.1 && decide (p.2 = .PENDING) then (p.1, .CANCELLED) else p

/-- Modelled from the spec: the Orchestrator's reaction to a completion report
during a DAG-group execution (the orchestration services are not under
`src/`).  §4.5: on SUCCESS, re-evaluate and dispatch now-ready downstream
nodes; if a Run ends FAILED or CANCELLED, all its not-yet-dispatched
downstream Runs are transitioned directly to CANCELLED rather than
dispatched. -/
def onReport (edges : List Edge) (g : List (EntityRef × RunStatus))
    (v : EntityRef) (oc : Outcome) : List (EntityRef × RunStatus) :=
  if statusOf g v = some .RUNNING then
    let g1 := setStatus g v oc.toStatus
    match oc with
    | .success => dispatchReady edges g1
    | .failed => cancelDownstream edges g1 v
    | .cancelled => cancelDownstream edges g1 v
  else g

/-- A whole group execution: fold the completion reports. -/
def runGroup (edges : List Edge) (g : List (EntityRef × RunStatus))
    (evs : List (EntityRef × Outcome)) : List (EntityRef × RunStatus) :=
  evs.foldl (fun st ev => onReport edges st ev.1 ev.2) g

lemma statusOf_map {g : List (EntityRef × RunStatus)}
    {f : EntityRef × RunStatus → EntityRef × RunStatus}
    (hf : ∀ p, (f p).1 = p.1) (w : EntityRef) :
    statusOf (g.map f) w = (g.find? fun p => p.1 = w).map fun p => (f p).2 := by
  induction g with
  | nil => rfl
  | cons p t ih =>
    unfold statusOf at *
    rw [List.map_cons]
    by_cases hw : p.1 = w
    · rw [List.find?_cons_of_pos _ (by simpa [hf p] using hw),
        List.find?_cons_of_pos _ (by simpa using hw)]
      rfl
    · rw [List.find?_cons_of_neg _ (by simpa [hf p] using hw),
        List.find?_cons_of_neg _ (by simpa using hw)]
      exact ih

lemma statusOf_find {g : List (EntityRef × RunStatus)} {w : EntityRef} {st : RunStatus}
    (h : statusOf g w = some st) :
    ∃ p, (g.find? fun p => p.1 = w) = some p ∧ p.1 = w ∧ p.2 = st := by
  unfold statusOf at h
  cases hfind : g.find? fun p => p.1 = w with
  | none => rw [hfind] at h; cases h
  | some p =>
    rw [hfind] at h
    refine ⟨p, rfl, ?_, Option.some.inj h⟩
    have := List.find?_some hfind
    simpa using this

lemma statusOf_map_of_fixed {g : List (EntityRef × RunStatus)} {w : EntityRef}
    {st st2 : RunStatus} {f : EntityRef × RunStatus → EntityRef × RunStatus}
    (hf : ∀ p, (f p).1 = p.1)
    (hfix : ∀ p, p.1 = w → p.2 = st → (f p).2 = st2)
    (h : statusOf g w = some st) : statusOf (g.map f) w = some st2 := by
  rw [statusOf_map hf]
  obtain ⟨p, hfind, hp1, hp2⟩ := statusOf_find h
  rw [hfind]
  simp only [Option.map_some']
  rw [hfix p hp1 hp2]

lemma onReport_preserves_cancelled {edges : List Edge}
    {g : List (EntityRef × RunStatus)} {w : EntityRef} (v : EntityRef) (oc : Outcome)
    (h : statusOf g w = some .CANCELLED) :
    statusOf (onReport edges g v oc) w = some .CANCELLED := by
  unfold onReport
  by_cases hrun : statusOf g v = some RunStatus.RUNNING
  · rw [if_pos hrun]
    have hvw : ¬ v = w := by
      intro heq
      rw [heq, h] at hrun
      cases hrun
    have h1 : statusOf (setStatus g v oc.toStatus) w = some .CANCELLED := by
      refine statusOf_map_of_fixed (fun p => ?_) (fun p hp1 hp2 => ?_) h
      · by_cases hp : p.1 = v <;> simp [hp]
      · rw [if_neg (by rw [hp1]; exact fun hc => hvw hc.symm)]
        exact hp2
    cases oc with
    | success =>
      refine statusOf_map_of_fixed (fun p => ?_) (fun p hp1 hp2 => ?_) h1
      · split <;> rfl
      · rw [if_neg]
        · exact hp2
        · rw [hp2]
          simp
    | failed =>
      refine statusOf_map_of_fixed (fun p => ?_) (fun p hp1 hp2 => ?_) h1
      · split <;> rfl
      · rw [if_neg]
        · exact hp2
        · rw [hp2]
          simp
    | cancelled =>
      refine statusOf_map_of_fixed (fun p => ?_) (fun p hp1 hp2 => ?_) h1
      · split <;> rfl
      · rw [if_neg]
        · exact hp2
        · rw [hp2]
          simp
  · rw [if_neg hrun]
    exact h

lemma runGroup_preserves_cancelled {edges : List Edge}
    {g : List (EntityRef × RunStatus)} {w : EntityRef}
    (evs : List (EntityRef × Outcome)) (h : statusOf g w = some .CANCELLED) :
    statusOf (runGroup edges g evs) w = some .CANCELLED := by
  induction evs generalizing g with
  | nil => exact h
  | cons ev t ih => exact ih (onReport_preserves_cancelled ev.1 ev.2 h)

/-- **C6.** During a DAG-group execution, whenever an upstream Run ends in
FAILED or CANCELLED, every not-yet-dispatched (PENDING) downstream Run of it
in the group is transitioned directly to CANCELLED — and stays CANCELLED
under every further completion report, so it is never dispatched. -/
theorem failed_upstream_skips_downstream (edges : List Edge)
    (g : List (EntityRef × RunStatus)) (v : EntityRef) (oc : Outcome)
    (hoc : oc = .failed ∨ oc = .cancelled)
    (hrun : statusOf g v = some .RUNNING)
    (w : EntityRef) (hdown : ReachPlus edges v w)
    (hpend : statusOf g w = some .PENDING) :
    statusOf (onReport edges g v oc) w = some .CANCELLED ∧
      ∀ evs, statusOf (runGroup edges (onReport edges g v oc) evs) w =
        some .CANCELLED := by
  have hvw : ¬ v = w := by
    intro heq
    rw [heq, hpend] at hrun
    cases hrun
  have hreach : reachableB edges v w = true := by
    obtain ⟨b, hvb, hbw⟩ := hdown
    exact reach_complete (Reach.step hvb hbw)
  have h2 : statusOf (setStatus g v oc.toStatus) w = some .PENDING := by
    refine statusOf_map_of_fixed (fun p => ?_) (fun p hp1 hp2 => ?_) hpend
    · by_cases hp : p.1 = v <;> simp [hp]
    · rw [if_neg (by rw [hp1]; exact fun hc => hvw hc.symm)]
      exact hp2
  have hcancel : ∀ g1, statusOf g1 w = some .PENDING →
      statusOf (cancelDownstream edges g1 v) w = some .CANCELLED := by
    intro g1 hg1
    refine statusOf_map_of_fixed (fun p => ?_) (fun p hp1 hp2 => ?_) hg1
    · split <;> rfl
    · rw [if_pos]
      rw [hp1, hp2]
      simp [hreach]
  have h1 : statusOf (onReport edges g v oc) w = some .CANCELLED := by
    unfold onReport
    rw [if_pos hrun]
    rcases hoc with rfl | rfl
    · exact hcancel _ h2
    · exact hcancel _ h2
  exact ⟨h1, fun evs => runGroup_preserves_cancelled evs h1⟩

/-- Concrete instance of C6: edges `A→B`, `B→C`; A is RUNNING, B and C are
PENDING; when A reports FAILED, C (transitively downstream, never dispatched)
is transitioned to CANCELLED. -/
theorem failed_upstream_skips_downstream_witness :
    statusOf [(⟨0, 1⟩, RunStatus.RUNNING), (⟨0, 2⟩, RunStatus.PENDING),
        (⟨0, 3⟩, RunStatus.PENDING)] ⟨0, 1⟩ = some .RUNNING ∧
      ReachPlus [Edge.mk ⟨0, 1⟩ ⟨0, 2⟩, Edge.mk ⟨0, 2⟩ ⟨0, 3⟩] ⟨0, 1⟩ ⟨0, 3⟩ ∧
      statusOf (onReport [Edge.mk ⟨0, 1⟩ ⟨0, 2⟩, Edge.mk ⟨0, 2⟩ ⟨0, 3⟩]
          [(⟨0, 1⟩, RunStatus.RUNNING), (⟨0, 2⟩, RunStatus.PENDING),
            (⟨0, 3⟩, RunStatus.PENDING)] ⟨0, 1⟩ .failed) ⟨0, 3⟩ =
        some .CANCELLED := by
  have hdown : ReachPlus [Edge.mk ⟨0, 1⟩ ⟨0, 2⟩, Edge.mk ⟨0, 2⟩ ⟨0, 3⟩] ⟨0, 1⟩ ⟨0, 3⟩ :=
    ⟨⟨0, 2⟩, by decide, Reach.step (by decide) (Reach.refl _)⟩
  refine ⟨by decide, hdown, ?_⟩
  exact (failed_upstream_skips_downstream _ _ _ _ (Or.inl rfl) (by decide) _ hdown
    (by decide)).1

/-! ## Example seed generators (`examples/_seed_generators.pyx`)

Datetimes are modelled as rational numbers of Unix seconds; each call to
`random.random()` is one value of an explicit entropy stream in `[0, 1)`, and
each `random.choice(lst)` is an index draw reduced modulo the list length.
The name/email/address constants live in `seed_constants.json` (not part of
the repository's files), so records carry only the fields the properties
speak about. -/

/-- `NOW = datetime(2025, 6, 15, 12, 0, 0)` — the fixed reproducible end of
the 18-month range, as Unix seconds. -/
def NOW : ℚ := 1749988800

/-- One day in seconds (`timedelta(days=1)`). -/
def daySeconds : ℚ := 86400

/-- `START = NOW - timedelta(days=18 * 30)`. -/
def START : ℚ := NOW - 18 * 30 * daySeconds

/-- `random_datetime_between(start, end)`: `start + random() * (end - start)`,
with the `random()` draw `r` passed explicitly. -/
def random_datetime_between (start finish r : ℚ) : ℚ :=
  start + r * (finish - start)

/-- The datetime fields of one generated user record. -/
structure UserRec where
  user_id : Nat
  created_at : ℚ
  last_login : ℚ
deriving DecidableEq, Repr

/-- One iteration of the `generate_users` loop: `created` is drawn between
`START` and `reg_end = NOW - 30 days`; with probability 0.6 `last_login` is
drawn in the active window `[NOW - 7 days, NOW)`, otherwise between `created`
and `NOW`. -/
def genUser (coin cr lr : ℚ) (uid : Nat) : UserRec :=
  let active_start : ℚ := NOW - 7 * daySeconds
  let reg_end : ℚ := NOW - 30 * daySeconds
  let created := random_datetime_between START reg_end cr
  let ll :=
    if coin < 3 / 5 then random_datetime_between active_start NOW lr
    else random_datetime_between created NOW lr
  ⟨uid, created, ll⟩

/-- `generate_users(n)`: user ids `1..n`, each record generated from the
per-user entropy draws. -/
def generate_users (coin cr lr : Nat → ℚ) (n : Nat) : List UserRec :=
  (List.range n).map fun i => genUser (coin i) (cr i) (lr i) (i + 1)

/-- **C9.** For every `n ≥ 1` (and any entropy stream, the `random()` draws
lying in `[0, 1)`), every user record returned by `generate_users(n)` has
`last_login` greater than or equal to `created_at`. -/
theorem generate_users_login_after_creation (coin cr lr : Nat → ℚ) (n : Nat)
    (hn : 1 ≤ n) (hcr : ∀ i, 0 ≤ cr i ∧ cr i < 1) (hlr : ∀ i, 0 ≤ lr i ∧ lr i < 1) :
    ∀ u ∈ generate_users coin cr lr n, u.created_at ≤ u.last_login := by
  intro u hu
  obtain ⟨i, _, rfl⟩ := List.mem_map.mp hu
  obtain ⟨hcr0, hcr1⟩ := hcr i
  obtain ⟨hlr0, hlr1⟩ := hlr i
  show (genUser (coin i) (cr i) (lr i) (i + 1)).created_at ≤
    (genUser (coin i) (cr i) (lr i) (i + 1)).last_login
  unfold genUser random_datetime_between
  dsimp only
  by_cases hc : coin i < 3 / 5
  · rw [if_pos hc]
    show START + cr i * (NOW - 30 * daySeconds - START) ≤
      NOW - 7 * daySeconds + lr i * (NOW - (NOW - 7 * daySeconds))
    simp only [START, NOW, daySeconds]
    nlinarith [hcr0, hcr1, hlr0, hlr1]
  · rw [if_neg hc]
    show START + cr i * (NOW - 30 * daySeconds - START) ≤
      START + cr i * (NOW - 30 * daySeconds - START) +
        lr i * (NOW - (START + cr i * (NOW - 30 * daySeconds - START)))
    have hcreated : START + cr i * (NOW - 30 * daySeconds - START) ≤ NOW := by
      simp only [START, NOW, daySeconds]
      nlinarith [hcr0, hcr1]
    have hprod := mul_nonneg hlr0
      (sub_nonneg.mpr hcreated)
    linarith

/-- Concrete instance of C9: with all-zero entropy streams and `n = 2`, every
generated user logs in no earlier than their account creation. -/
theorem generate_users_login_after_creation_witness :
    1 ≤ 2 ∧ (∀ i : Nat, (0:ℚ) ≤ 0 ∧ (0:ℚ) < 1) ∧
      ∀ u ∈ generate_users (fun _ => 0) (fun _ => 0) (fun _ => 0) 2,
        u.created_at ≤ u.last_login :=
  ⟨by omega, fun _ => ⟨le_refl 0, zero_lt_one⟩,
    generate_users_login_after_creation (fun _ => 0) (fun _ => 0) (fun _ => 0) 2
      (by omega) (fun _ => ⟨le_refl 0, zero_lt_one⟩) (fun _ => ⟨le_refl 0, zero_lt_one⟩)⟩

/-- One generated rating record. -/
structure RatingRec where
  good_id : Nat
  user_id : Nat
  rating : Nat
  created_at : ℚ
deriving DecidableEq, Repr

/-- `random.choice(lst)` as an explicit index draw reduced modulo the list
length. -/
def chooseFrom (l : List Nat) (k : Nat) : Nat := l.getD (k % l.length) 0

/-- The `generate_ratings` while-loop: stop when `n` ratings are collected or
the attempt budget is exhausted; each attempt draws a `(user_id, good_id)`
pair, skipped when already seen, and otherwise appended to both the ratings
and the seen set. -/
def ratingsLoop (user_ids good_ids rating_dist : List Nat)
    (pickU pickG pickR : Nat → Nat) (pickT : Nat → ℚ) (n : Nat) :
    Nat → Nat → List RatingRec → List (Nat × Nat) → List RatingRec
  | 0, _, acc, _ => acc
  | fuel + 1, i, acc, seen =>
    if n ≤ acc.length then acc
    else
      let u := chooseFrom user_ids (pickU i)
      let g := chooseFrom good_ids (pickG i)
      if (u, g) ∈ seen then
        ratingsLoop user_ids good_ids rating_dist pickU pickG pickR pickT n
          fuel (i + 1) acc seen
      else
        ratingsLoop user_ids good_ids rating_dist pickU pickG pickR pickT n
          fuel (i + 1)
          (acc ++ [⟨g, u, chooseFrom rating_dist (pickR i),
            random_datetime_between (START + 30 * daySeconds) NOW (pickT i)⟩])
          ((u, g) :: seen)

/-- `generate_ratings(user_ids, good_ids, n)`: the loop with attempt budget
`max_attempts = n * 3`, starting from empty ratings and seen set. -/
def generate_ratings (user_ids good_ids rating_dist : List Nat)
    (pickU pickG pickR : Nat → Nat) (pickT : Nat → ℚ) (n : Nat) : List RatingRec :=
  ratingsLoop user_ids good_ids rating_dist pickU pickG pickR pickT n (n * 3) 0 [] []

lemma ratingsLoop_spec (user_ids good_ids rating_dist : List Nat)
    (pickU pickG pickR : Nat → Nat) (pickT : Nat → ℚ) (n : Nat) :
    ∀ (fuel i : Nat) (acc : List RatingRec) (seen : List (Nat × Nat)),
      acc.length ≤ n →
      (acc.map fun r => (r.user_id, r.good_id)).Nodup →
      (∀ r ∈ acc, (r.user_id, r.good_id) ∈ seen) →
      (ratingsLoop user_ids good_ids rating_dist pickU pickG pickR pickT n
          fuel i acc seen).length ≤ n ∧
        ((ratingsLoop user_ids good_ids rating_dist pickU pickG pickR pickT n
            fuel i acc seen).map fun r => (r.user_id, r.good_id)).Nodup := by
  intro fuel
  induction fuel with
  | zero => exact fun i acc seen h1 h2 _ => ⟨h1, h2⟩
  | succ m ih =>
    intro i acc seen h1 h2 h3
    by_cases hn : n ≤ acc.length
    · simp only [ratingsLoop, hn, if_true]
      exact ⟨h1, h2⟩
    · simp only [ratingsLoop, hn, if_false]
      by_cases hseen : (chooseFrom user_ids (pickU i), chooseFrom good_ids (pickG i)) ∈ seen
      · rw [if_pos hseen]
        exact ih (i + 1) acc seen h1 h2 h3
      · rw [if_neg hseen]
        apply ih
        · rw [List.length_append, List.length_singleton]
          omega
        · rw [List.map_append, List.map_singleton]
          refine ((List.perm_append_singleton _ _).nodup_iff).mpr (List.nodup_cons.mpr ⟨?_, h2⟩)
          intro hmem
          obtain ⟨r, hr, hkey⟩ := List.mem_map.mp hmem
          have := h3 r hr
          rw [hkey] at this
          exact hseen this
        · intro r hr
          rcases List.mem_append.mp hr with h4 | h4
          · exact List.mem_cons_of_mem _ (h3 r h4)
          · rw [List.mem_singleton.mp h4]
            exact List.mem_cons_self _ _

/-- **C10.** For every `n` and non-empty `user_ids` and `good_ids`,
`generate_ratings(user_ids, good_ids, n)` returns at most `n` ratings whose
`(user_id, good_id)` pairs are pairwise distinct (it may return fewer than
`n` once the attempt budget of `3·n` draws is exhausted). -/
theorem generate_ratings_bounded_distinct (user_ids good_ids rating_dist : List Nat)
    (pickU pickG pickR : Nat → Nat) (pickT : Nat → ℚ) (n : Nat)
    (hu : user_ids ≠ []) (hg : good_ids ≠ []) :
    (generate_ratings user_ids good_ids rating_dist pickU pickG pickR pickT n).length ≤ n ∧
      ((generate_ratings user_ids good_ids rating_dist pickU pickG pickR pickT n).map
        fun r => (r.user_id, r.good_id)).Nodup :=
  ratingsLoop_spec user_ids good_ids rating_dist pickU pickG pickR pickT n
    (n * 3) 0 [] [] (by simp) (by simp) (by simp)

/-- Concrete instance of C10: two users, one good, `n = 3` — at most 3
ratings, all `(user_id, good_id)` pairs distinct. -/
theorem generate_ratings_bounded_distinct_witness :
    ([1, 2] : List Nat) ≠ [] ∧ ([5] : List Nat) ≠ [] ∧
      (generate_ratings [1, 2] [5] [4] (fun i => i) (fun i => i) (fun i => i)
          (fun _ => 0) 3).length ≤ 3 ∧
      ((generate_ratings [1, 2] [5] [4] (fun i => i) (fun i => i) (fun i => i)
          (fun _ => 0) 3).map fun r => (r.user_id, r.good_id)).Nodup :=
  ⟨by decide, by decide,
    generate_ratings_bounded_distinct [1, 2] [5] [4] (fun i => i) (fun i => i)
      (fun i => i) (fun _ => 0) 3 (by decide) (by decide)⟩

end Datanika
